import Mathlib

/-!
Verification development for the dbmigrate library: a shallow embedding of
the migration-chain resolver (`findMigrationsToApply`), the transactional
applier (`applyMigration`), the dialect adapters (`sqliteSupp`, `mysqlSupp`,
`newDialectSupp`) and the orchestrator (`Upgrade` / `UpgradeToLatest`),
together with theorems about their behaviour.

Database effects are abstracted: every `Exec` call is modelled by a function
`String → Option String` giving the (optional) error produced by executing a
given SQL string, and each dialect operation reports the list of SQL commands
it issues alongside its error outcome.  Go's `panic` and the nil-pointer
dereference reachable in the resolver are modelled by explicit `crash`
constructors.  Go maps are modelled by association lists (keys are unique at
insertion time because the source checks for duplicates before inserting).
-/

namespace Dbmigrate

/-- The `Migration` value type.  The `PreUpgrade`/`PostUpgrade` hook function
fields of the Go struct are modelled by presence flags (`hasPreUpgrade`,
`hasPostUpgrade`); the outcome of running a present hook is part of the
effect environment (`ApplyEnv`). -/
structure Migration where
  previous : String := ""
  id : String := ""
  desc : String := ""
  stmt : String := ""
  hasPreUpgrade : Bool := false
  hasPostUpgrade : Bool := false
  disableFK : Bool := false
deriving DecidableEq

/-- Validation errors produced by `findMigrationsToApply`. -/
inductive ResolveErr where
  | emptyID : ResolveErr
  | duplicateID (id previous : String) : ResolveErr
  | duplicatePrev (previous nextID : String) : ResolveErr
  | invalidPrev (id previous : String) : ResolveErr
  | notCorrelated : ResolveErr
  | targetNotFound (target : String) : ResolveErr
deriving DecidableEq

/-- The error strings produced by the corresponding `errors.New`/`fmt.Errorf`
calls in the source. -/
def ResolveErr.message : ResolveErr → String
  | .emptyID => "migration ID cannot be empty"
  | .duplicateID i p =>
      "migration with ID \"" ++ i ++ "\" already exists, parent migration \"" ++ p ++ "\""
  | .duplicatePrev p n =>
      "migration with ID \"" ++ p ++ "\" already exists, next migration \"" ++ n ++ "\""
  | .invalidPrev i p =>
      "migration \"" ++ i ++ "\" has invalid previous migration ID \"" ++ p ++ "\""
  | .notCorrelated => "provided migration does not correlate with already applied migrations"
  | .targetNotFound t => "target migration with ID \"" ++ t ++ "\" not found"

/-- Outcome of `findMigrationsToApply`: a result slice, a returned error, or a
runtime crash (the nil-pointer dereference of the anchor pointer, or a
diverging forward walk). -/
inductive ResolveOutcome where
  | ok : List Migration → ResolveOutcome
  | err : ResolveErr → ResolveOutcome
  | crash : ResolveOutcome
deriving DecidableEq

/-- Association-list lookup, modelling Go map lookup (keys are unique at
insertion time in every use below). -/
def lookupA {α : Type} : List (String × α) → String → Option α
  | [], _ => none
  | p :: rest, k => if p.1 = k then some p.2 else lookupA rest k

/-- First loop of `findMigrationsToApply` (source lines 122-144): builds the
by-id map `mMap` and the by-previous map `rmMap`, rejecting empty ids,
duplicate ids and duplicate previous ids, while tracking whether some
migration's `Previous` is an already-applied id (`appliedFound`). -/
def buildMaps (applied : List String) :
    List Migration → List (String × Migration) → List (String × String) → Bool →
    Except ResolveErr (List (String × Migration) × List (String × String) × Bool)
  | [], mMap, rmMap, appliedFound => .ok (mMap, rmMap, appliedFound)
  | m :: rest, mMap, rmMap, appliedFound =>
    if m.id = "" then .error .emptyID
    else
      let af := appliedFound || decide (m.previous ∈ applied)
      match lookupA mMap m.id with
      | some prev => .error (.duplicateID m.id prev.previous)
      | none =>
        match lookupA rmMap m.previous with
        | some curID => .error (.duplicatePrev m.previous curID)
        | none => buildMaps applied rest (mMap ++ [(m.id, m)]) (rmMap ++ [(m.previous, m.id)]) af

/-- Second loop of `findMigrationsToApply` (source lines 146-155): finds the
unique dangling `previous` value (the anchor); a second dangling value is the
"invalid previous migration ID" error.  `none` models the Go `initialID` nil
pointer never being assigned. -/
def findAnchor (mMap : List (String × Migration)) :
    List Migration → Option String → Except ResolveErr (Option String)
  | [], acc => .ok acc
  | m :: rest, acc =>
    match lookupA mMap m.previous with
    | some _ => findAnchor mMap rest acc
    | none =>
      match acc with
      | some _ => .error (.invalidPrev m.id m.previous)
      | none => findAnchor mMap rest (some m.previous)

/-- Forward walk of `findMigrationsToApply` (source lines 166-176), following
`rmMap` from the anchor.  The Go loop is unbounded; `fuel` bounds the model,
and `none` models either divergence of the walk or the (unreachable) append of
a nil `mMap` entry. -/
def walkChain (mMap : List (String × Migration)) (rmMap : List (String × String)) :
    Nat → String → Option (List Migration)
  | 0, _ => none
  | fuel + 1, cur =>
    match lookupA rmMap cur with
    | none => some []
    | some mID =>
      match lookupA mMap mID with
      | none => none
      | some m => (walkChain mMap rmMap fuel mID).map (fun rest => m :: rest)

/-- Final scan of `findMigrationsToApply` (source lines 178-187): computes the
index of the last applied migration (`latestApplied`, `-1` if none) and the
index-plus-one of the target migration (`target`, defaulting to the length). -/
def scanLoop (applied : List String) (targetID : String) :
    List Migration → Nat → Int → Nat → Int × Nat
  | [], _, la, tg => (la, tg)
  | m :: rest, i, la, tg =>
      scanLoop applied targetID rest (i + 1)
        (if m.id ∈ applied then (i : Int) else la)
        (if m.id = targetID then i + 1 else tg)

/-- Lines 178-191 of the source: scan the total order, then either return the
empty no-op result or the slice `ordered[latestApplied+1 : target]`. -/
def scanSlice (applied : List String) (targetID : String) (ordered : List Migration) :
    ResolveOutcome :=
  let p := scanLoop applied targetID ordered 0 (-1) ordered.length
  if (p.2 : Int) - 1 ≤ p.1 then .ok []
  else .ok ((ordered.drop (p.1 + 1).toNat).take (p.2 - (p.1 + 1).toNat))

/-- Lines 157-191 of the source, after the two maps and the anchor candidate
are in hand: the correlation check, the target check, the forward walk from
the anchor (dereferencing the anchor pointer — `crash` when it was never
assigned) and the final scan and slice. -/
def resolveAfterAnchor (applied : List String) (targetID : String) (migsLen : Nat)
    (mMap : List (String × Migration)) (rmMap : List (String × String))
    (appliedFound : Bool) (anchorOpt : Option String) : ResolveOutcome :=
  if appliedFound = false then .err .notCorrelated
  else if targetID ≠ "" ∧ lookupA mMap targetID = none then .err (.targetNotFound targetID)
  else
    match anchorOpt with
    | none => .crash
    | some anchor =>
      match walkChain mMap rmMap (migsLen + 1) anchor with
      | none => .crash
      | some ordered => scanSlice applied targetID ordered

/-- The chain resolver `findMigrationsToApply` (source lines 112-192). -/
def findMigrationsToApply (migrations : List Migration) (applied : List String)
    (targetID : String) : ResolveOutcome :=
  match buildMaps applied migrations [] [] applied.isEmpty with
  | .error e => .err e
  | .ok (mMap, rmMap, appliedFound) =>
    match findAnchor mMap migrations none with
    | .error e => .err e
    | .ok anchorOpt =>
      resolveAfterAnchor applied targetID migrations.length mMap rmMap appliedFound anchorOpt

/-! ### Chain vocabulary used by the theorems -/

/-- The ids of a migration list. -/
def idsOf (c : List Migration) : List String := c.map Migration.id

/-- The previous-ids of a migration list. -/
def prevsOf (c : List Migration) : List String := c.map Migration.previous

/-- The by-id association list the resolver builds for `c`. -/
def mListOf (c : List Migration) : List (String × Migration) := c.map fun m => (m.id, m)

/-- The by-previous association list the resolver builds for `c`. -/
def rmListOf (c : List Migration) : List (String × String) := c.map fun m => (m.previous, m.id)

/-- `linked a c` holds when `c`, in list order, is a chain hanging off the
anchor value `a`: the head's `previous` is `a` and each element's `previous`
is the id of its predecessor. -/
def linked : String → List Migration → Prop
  | _, [] => True
  | a, m :: rest => m.previous = a ∧ linked m.id rest

/-- The id of the last element of a chain (the anchor itself for an empty
chain): the point where the forward walk stops. -/
def chainEnd : String → List Migration → String
  | a, [] => a
  | _, m :: rest => chainEnd m.id rest

/-- A valid migration chain with anchor `a`, presented in chain order:
linked, duplicate-free non-empty ids, and an anchor outside the id set. -/
def validChain (a : String) (c : List Migration) : Prop :=
  linked a c ∧ (idsOf c).Nodup ∧ (∀ m ∈ c, m.id ≠ "") ∧ a ∉ idsOf c

/-! ### Dialect adapters -/

/-- A dialect adapter.  Each operation takes the `Exec` effect abstraction (a
function from SQL text to the optional error of executing it) and returns the
list of SQL commands it issues together with its error outcome. -/
structure DialectOps where
  ensureMigrationLog : (String → Option String) → List String × Option String
  ensureFKChecksEnabled : (String → Option String) → List String × Option String
  enableFKs : (String → Option String) → List String × Option String
  disableFKs : (String → Option String) → List String × Option String
  saveMigrationToLog : (String → Option String) → String → String → List String × Option String

/-- The SQL issued by `ensureMigrationsHistoryTableExists` (whitespace
normalised). -/
def createMigrationsTableSQL : String :=
  "CREATE TABLE IF NOT EXISTS migrations (id TEXT NOT NULL, desc TEXT NOT NULL, at DATETIME NOT NULL);"

/-- `ensureMigrationsHistoryTableExists`, shared by both dialects. -/
def ensureMigrationsHistoryTableExists (exec : String → Option String) :
    List String × Option String :=
  ([createMigrationsTableSQL],
    (exec createMigrationsTableSQL).map (fun e => "creating migration table: " ++ e))

/-- The SQLite dialect adapter (`sqliteSupp`), with the query strings and
error-wrapping of the source. -/
def sqliteSupp : DialectOps where
  ensureMigrationLog := ensureMigrationsHistoryTableExists
  ensureFKChecksEnabled := fun exec =>
    (["PRAGMA foreign_keys = ON;"],
      (exec "PRAGMA foreign_keys = ON;").map
        (fun e => "sqlite: error enabling foreign keys: " ++ e))
  enableFKs := fun exec =>
    (["PRAGMA foreign_keys = ON; PRAGMA legacy_alter_table = OFF;"],
      (exec "PRAGMA foreign_keys = ON; PRAGMA legacy_alter_table = OFF;").map
        (fun e => "sqlite: disable FK constraints: " ++ e))
  disableFKs := fun exec =>
    (["PRAGMA legacy_alter_table = ON; PRAGMA foreign_keys = OFF;"],
      (exec "PRAGMA legacy_alter_table = ON; PRAGMA foreign_keys = OFF;").map
        (fun e => "sqlite: disable FK constraints: " ++ e))
  saveMigrationToLog := fun exec _migrationID _desc =>
    (["INSERT INTO migrations (desc, id, at) VALUES (?, ?, DATE(now));"],
      (exec "INSERT INTO migrations (desc, id, at) VALUES (?, ?, DATE(now));").map
        (fun e => "sqlite: save migration info to db: " ++ e))

/-- The MySQL dialect adapter (`mysqlSupp`); its FK-check operations execute
nothing and always succeed. -/
def mysqlSupp : DialectOps where
  ensureMigrationLog := ensureMigrationsHistoryTableExists
  ensureFKChecksEnabled := fun _ => ([], none)
  enableFKs := fun _ => ([], none)
  disableFKs := fun _ => ([], none)
  saveMigrationToLog := fun exec _migrationID _desc =>
    (["INSERT INTO migrations (desc, id, at) VALUES (?, ?, NOW());"],
      (exec "INSERT INTO migrations (desc, id, at) VALUES (?, ?, NOW());").map
        (fun e => "mysql: save migration info to db: " ++ e))

/-- The dialect name constants of the source. -/
def DialectSQLite : String := "sqlite3"

/-- The MySQL dialect name constant of the source. -/
def DialectMySQL : String := "mysql"

/-- `newDialectSupp`: the pure mapping from dialect names to adapters.
`none` models the `panic` on an unrecognised name. -/
def newDialectSupp (dialect : String) : Option DialectOps :=
  if dialect = DialectSQLite then some sqliteSupp
  else if dialect = DialectMySQL then some mysqlSupp
  else none

/-! ### Transactional applier -/

/-- Effect environment for one `applyMigration` call: outcomes of the raw
connection `Exec` (used by the FK toggles, outside the transaction), the
transactional `Exec`, the hooks, and commit/rollback/begin. -/
structure ApplyEnv where
  connExec : String → Option String
  txExec : String → Option String
  beginErr : Option String := none
  commitErr : Option String := none
  rollbackErr : Option String := none
  preErr : Option String := none
  postErr : Option String := none

/-- Statement loop of `applyMigration` (source lines 208-216): execute each
non-blank semicolon-separated segment, wrapping the first failure. -/
def execStmts (exec : String → Option String) (mID : String) : List String → Option String
  | [] => none
  | stmt :: rest =>
    if stmt.trim = "" then execStmts exec mID rest
    else
      match exec stmt with
      | some e => some ("migration \"" ++ mID ++ "\" failed: " ++ e)
      | none => execStmts exec mID rest

/-- The transactional body of `applyMigration` (source lines 201-227):
pre-hook, statements, post-hook, log write; first failure wins. -/
def txBody (ds : DialectOps) (env : ApplyEnv) (m : Migration) : Option String :=
  match (if m.hasPreUpgrade then env.preErr else none) with
  | some e => some ("migration \"" ++ m.id ++ "\", pre-upgrade method failed: " ++ e)
  | none =>
    match execStmts env.txExec m.id (m.stmt.splitOn ";") with
    | some e => some e
    | none =>
      match (if m.hasPostUpgrade then env.postErr else none) with
      | some e => some ("migration \"" ++ m.id ++ "\", post-upgrade method failed: " ++ e)
      | none => (ds.saveMigrationToLog env.txExec m.id m.desc).2

/-- `withTx`/`wrapTx` (source lines 62-87): begin, run the body, then roll
back on failure (a rollback error replaces the body error) or commit (a
commit error becomes the result). -/
def withTxModel (env : ApplyEnv) (bodyErr : Option String) : Option String :=
  match env.beginErr with
  | some e => some e
  | none =>
    match bodyErr with
    | some e =>
      match env.rollbackErr with
      | some rbe => some rbe
      | none => some e
    | none => env.commitErr

/-- Observable phases of `applyMigration`: the dialect FK-disable call, the
transactional region, and the dialect FK-enable call, in execution order. -/
inductive ApplyEvent where
  | disableFKsCall : ApplyEvent
  | txRegion : ApplyEvent
  | enableFKsCall : ApplyEvent
deriving DecidableEq

/-- `applyMigration` (source lines 194-235): optional FK disable on the raw
connection, the transaction, then — whenever the disable step ran — the FK
enable on the raw connection, whose failure replaces the transaction's
result.  Returns the trace of phases together with the returned error. -/
def applyMigration (ds : DialectOps) (env : ApplyEnv) (m : Migration) :
    List ApplyEvent × Option String :=
  if m.disableFK then
    match (ds.disableFKs env.connExec).2 with
    | some e => ([.disableFKsCall], some e)
    | none =>
      let txErr := withTxModel env (txBody ds env m)
      match (ds.enableFKs env.connExec).2 with
      | some fkErr => ([.disableFKsCall, .txRegion, .enableFKsCall], some fkErr)
      | none => ([.disableFKsCall, .txRegion, .enableFKsCall], txErr)
  else ([.txRegion], withTxModel env (txBody ds env m))

/-! ### Upgrade orchestrator -/

/-- Outcome of `Upgrade`: success, a returned error, or a panic/crash. -/
inductive UpgradeOutcome where
  | ok : UpgradeOutcome
  | err : String → UpgradeOutcome
  | crash : String → UpgradeOutcome
deriving DecidableEq

/-- The Go runtime message for the nil-pointer dereference reachable in the
resolver's forward walk. -/
def nilDerefMsg : String := "runtime error: invalid memory address or nil pointer dereference"

/-- Effect environment for one `Upgrade` call: the raw connection `Exec`, the
result of reading the applied-migrations log, and a per-migration
`ApplyEnv`. -/
structure UpgradeEnv where
  connExec : String → Option String
  appliedRead : Except String (List String)
  migEnv : Migration → ApplyEnv

/-- The apply loop of `Upgrade` (source lines 67-71): apply each migration in
order, stopping at the first failure with the wrapping of the source. -/
def applyLoop (ds : DialectOps) (migEnv : Migration → ApplyEnv) :
    List Migration → UpgradeOutcome
  | [] => .ok
  | m :: rest =>
    match (applyMigration ds (migEnv m) m).2 with
    | some e => .err ("migration \"" ++ m.id ++ "\" failed: " ++ e)
    | none => applyLoop ds migEnv rest

/-- `Upgrade` (source lines 44-73): dialect dispatch (panicking on an unknown
name before any database access), ensure the log table, ensure the FK
baseline, read the applied ids, resolve the chain, then apply. -/
def Upgrade (env : UpgradeEnv) (dialect targetID : String) (migrations : List Migration) :
    UpgradeOutcome :=
  match newDialectSupp dialect with
  | none => .crash ("unsupported dialect: \"" ++ dialect ++ "\"")
  | some ds =>
    match (ds.ensureMigrationLog env.connExec).2 with
    | some e => .err e
    | none =>
      match (ds.ensureFKChecksEnabled env.connExec).2 with
      | some e => .err e
      | none =>
        match env.appliedRead with
        | .error e => .err e
        | .ok applied =>
          match findMigrationsToApply migrations applied targetID with
          | .err e => .err e.message
          | .crash => .crash nilDerefMsg
          | .ok mm => if mm = [] then .ok else applyLoop ds env.migEnv mm

/-- `UpgradeToLatest` (source lines 39-41): `Upgrade` with an empty target. -/
def UpgradeToLatest (env : UpgradeEnv) (dialect : String) (migrations : List Migration) :
    UpgradeOutcome :=
  Upgrade env dialect "" migrations

/-! ### Concrete migrations and environments used in witnesses and counterexamples -/

/-- A single anchored migration. -/
def mA : Migration := { previous := "", id := "a" }

/-- One half of a two-cycle. -/
def mB : Migration := { previous := "c", id := "b" }

/-- The other half of a two-cycle. -/
def mC : Migration := { previous := "b", id := "c" }

/-- Chain scenario migration 1. -/
def s1 : Migration := { previous := "anchor", id := "id1" }

/-- Chain scenario migration 2. -/
def s2 : Migration := { previous := "id1", id := "id2" }

/-- Chain scenario migration 3. -/
def s3 : Migration := { previous := "id2", id := "id3" }

/-- An effect environment in which every database call succeeds. -/
def quietApplyEnv : ApplyEnv where
  connExec := fun _ => none
  txExec := fun _ => none

/-- An upgrade environment in which every call succeeds and the applied log
is empty. -/
def quietUpgradeEnv : UpgradeEnv where
  connExec := fun _ => none
  appliedRead := .ok []
  migEnv := fun _ => quietApplyEnv

/-- A raw-connection model that fails exactly on the SQLite enable-FK pragma. -/
def enableFailsExec : String → Option String := fun s =>
  if s = "PRAGMA foreign_keys = ON; PRAGMA legacy_alter_table = OFF;" then some "locked" else none

/-- Apply environment whose raw connection fails exactly on the SQLite
enable-FK pragma. -/
def enableFailsEnv : ApplyEnv where
  connExec := enableFailsExec
  txExec := fun _ => none

/-- A migration with `DisableFK` set. -/
def mFK : Migration := { previous := "", id := "fk1", stmt := "CREATE TABLE t (x INTEGER);", disableFK := true }

/-- A migration with an empty id. -/
def mEmpty : Migration := { previous := "", id := "" }

end Dbmigrate

namespace Dbmigrate

/-! ### Association-list lemmas -/

theorem lookupA_eq_none {α : Type} (l : List (String × α)) (k : String) :
    lookupA l k = none ↔ k ∉ l.map Prod.fst := by
  induction l with
  | nil => simp [lookupA]
  | cons p rest ih =>
    by_cases h : p.1 = k
    · simp [lookupA, h]
    · have h' : k ≠ p.1 := fun he => h he.symm
      simp [lookupA, h, h', ih]

theorem lookupA_eq_some_of_mem {α : Type} {l : List (String × α)}
    (hnd : (l.map Prod.fst).Nodup) {k : String} {v : α} (hm : (k, v) ∈ l) :
    lookupA l k = some v := by
  induction l with
  | nil => simp at hm
  | cons p rest ih =>
    have hnd0 : (p.1 :: rest.map Prod.fst).Nodup := by simpa using hnd
    have hnd' : p.1 ∉ rest.map Prod.fst ∧ (rest.map Prod.fst).Nodup := List.nodup_cons.mp hnd0
    rcases List.mem_cons.mp hm with h | h
    · rw [← h]; simp [lookupA]
    · have hk : p.1 ≠ k := by
        intro he
        exact hnd'.1 (he ▸ List.mem_map.mpr ⟨(k, v), h, rfl⟩)
      rw [lookupA, if_neg hk]
      exact ih hnd'.2 h

theorem mem_of_lookupA_eq_some {α : Type} {l : List (String × α)} {k : String} {v : α}
    (h : lookupA l k = some v) : (k, v) ∈ l := by
  induction l with
  | nil => simp [lookupA] at h
  | cons p rest ih =>
    by_cases hk : p.1 = k
    · rw [lookupA, if_pos hk] at h
      obtain rfl : p.2 = v := by simpa using h
      exact List.mem_cons.mpr (Or.inl (by rw [← hk]))
    · rw [lookupA, if_neg hk] at h
      exact List.mem_cons.mpr (Or.inr (ih h))

theorem lookupA_perm {α : Type} {l₁ l₂ : List (String × α)} (hnd : (l₁.map Prod.fst).Nodup)
    (hp : List.Perm l₁ l₂) (k : String) : lookupA l₁ k = lookupA l₂ k := by
  cases h : lookupA l₁ k with
  | none =>
    rw [lookupA_eq_none] at h
    rw [eq_comm, lookupA_eq_none]
    exact fun hm => h ((hp.map Prod.fst).mem_iff.mpr hm)
  | some v =>
    have hnd₂ : (l₂.map Prod.fst).Nodup := ((hp.map Prod.fst).nodup_iff).mp hnd
    exact (lookupA_eq_some_of_mem hnd₂ (hp.mem_iff.mp (mem_of_lookupA_eq_some h))).symm

@[simp] theorem mListOf_keys (c : List Migration) : (mListOf c).map Prod.fst = idsOf c := by
  induction c <;> simp_all [mListOf, idsOf]

@[simp] theorem rmListOf_keys (c : List Migration) : (rmListOf c).map Prod.fst = prevsOf c := by
  induction c <;> simp_all [rmListOf, prevsOf]

/-! ### Chain shape lemmas -/

@[simp] theorem linked_nil (a : String) : linked a [] ↔ True := by simp [linked]

@[simp] theorem linked_cons (a : String) (m : Migration) (rest : List Migration) :
    linked a (m :: rest) ↔ m.previous = a ∧ linked m.id rest := by simp [linked]

theorem linked_tail_prev :
    ∀ (rest : List Migration) (m : Migration) (a : String), linked a (m :: rest) →
      ∀ m' ∈ rest, m'.previous ∈ idsOf (m :: rest) := by
  intro rest
  induction rest with
  | nil => intro m a _ m' hm'; simp at hm'
  | cons m₂ r ih =>
    intro m a h m' hm'
    have h2 : m₂.previous = m.id ∧ linked m₂.id r := by
      have := (linked_cons a m (m₂ :: r)).mp h
      exact (linked_cons m.id m₂ r).mp this.2
    rcases List.mem_cons.mp hm' with rfl | hm'
    · rw [h2.1]; simp [idsOf]
    · have := ih m₂ m.id (by simp [h2]) m' hm'
      simp only [idsOf, List.map_cons, List.mem_cons] at this ⊢
      tauto

theorem prevs_sub :
    ∀ (c : List Migration) (x : String), linked x c → ∀ p ∈ prevsOf c, p ∈ x :: idsOf c := by
  intro c
  induction c with
  | nil => intro x _ p hp; simp [prevsOf] at hp
  | cons m rest ih =>
    intro x h p hp
    have h' := (linked_cons x m rest).mp h
    simp only [prevsOf, List.map_cons, List.mem_cons] at hp
    rcases hp with rfl | hp
    · simp [h'.1]
    · have := ih m.id h'.2 p hp
      simp only [idsOf, List.map_cons, List.mem_cons] at this ⊢
      tauto

theorem chain_prevs_nodup :
    ∀ (c : List Migration) (a : String), linked a c → (a :: idsOf c).Nodup →
      (prevsOf c).Nodup := by
  intro c
  induction c with
  | nil => intro a _ _; simp [prevsOf]
  | cons m rest ih =>
    intro a hl hnd
    have hl' := (linked_cons a m rest).mp hl
    have hnd' : (m.id :: idsOf rest).Nodup := by
      have := List.nodup_cons.mp hnd
      simpa [idsOf] using this.2
    have htail : (prevsOf rest).Nodup := ih m.id hl'.2 hnd'
    have hnotmem : a ∉ prevsOf rest := by
      intro hmem
      have := prevs_sub rest m.id hl'.2 a hmem
      have ha : a ∉ m.id :: idsOf rest := by
        have := List.nodup_cons.mp hnd
        simpa [idsOf] using this.1
      exact ha this
    simp only [prevsOf, List.map_cons, List.nodup_cons, hl'.1]
    exact ⟨hnotmem, htail⟩

theorem chainEnd_mem : ∀ (c : List Migration) (a : String), chainEnd a c ∈ a :: idsOf c := by
  intro c
  induction c with
  | nil => intro a; simp [chainEnd]
  | cons m rest ih =>
    intro a
    have := ih m.id
    simp only [chainEnd, idsOf, List.map_cons, List.mem_cons] at this ⊢
    tauto

theorem chainEnd_not_mem_prevs :
    ∀ (c : List Migration) (a : String), linked a c → (a :: idsOf c).Nodup →
      chainEnd a c ∉ prevsOf c := by
  intro c
  induction c with
  | nil => intro a _ _; simp [prevsOf]
  | cons m rest ih =>
    intro a hl hnd
    have hl' := (linked_cons a m rest).mp hl
    have hnd' : (m.id :: idsOf rest).Nodup := by
      have := List.nodup_cons.mp hnd
      simpa [idsOf] using this.2
    have hrec : chainEnd m.id rest ∉ prevsOf rest := ih m.id hl'.2 hnd'
    have hne : chainEnd m.id rest ≠ a := by
      intro he
      have hmem := chainEnd_mem rest m.id
      have ha : a ∉ m.id :: idsOf rest := by
        have := List.nodup_cons.mp hnd
        simpa [idsOf] using this.1
      exact ha (he ▸ hmem)
    simp only [chainEnd, prevsOf, List.map_cons, List.mem_cons, hl'.1]
    rintro (he | hmem)
    · exact hne he
    · exact hrec (by simpa [prevsOf] using hmem)

/-! ### Behaviour of the resolver's passes -/

theorem buildMaps_ok (applied : List String) (l : List Migration) :
    ∀ (mAcc : List (String × Migration)) (rmAcc : List (String × String)) (af : Bool),
      (∀ m ∈ l, m.id ≠ "") →
      (mAcc.map Prod.fst ++ idsOf l).Nodup →
      (rmAcc.map Prod.fst ++ prevsOf l).Nodup →
      buildMaps applied l mAcc rmAcc af =
        .ok (mAcc ++ mListOf l, rmAcc ++ rmListOf l,
             af || l.any (fun m => decide (m.previous ∈ applied))) := by
  induction l with
  | nil => intro mAcc rmAcc af _ _ _; simp [buildMaps, mListOf, rmListOf]
  | cons m rest ih =>
    intro mAcc rmAcc af h1 h2 h3
    have hid : m.id ≠ "" := h1 m (by simp)
    have h2' : (mAcc.map Prod.fst ++ (m.id :: idsOf rest)).Nodup := by
      simpa [idsOf] using h2
    have h3' : (rmAcc.map Prod.fst ++ (m.previous :: prevsOf rest)).Nodup := by
      simpa [prevsOf] using h3
    have hmA : lookupA mAcc m.id = none := by
      rw [lookupA_eq_none]
      intro hmem
      exact (List.nodup_append.mp h2').2.2 hmem (by simp)
    have hrA : lookupA rmAcc m.previous = none := by
      rw [lookupA_eq_none]
      intro hmem
      exact (List.nodup_append.mp h3').2.2 hmem (by simp)
    rw [buildMaps, if_neg hid]
    simp only [hmA, hrA]
    rw [ih (mAcc ++ [(m.id, m)]) (rmAcc ++ [(m.previous, m.id)])
          (af || decide (m.previous ∈ applied))
          (fun m' hm' => h1 m' (by simp [hm']))
          (by simpa [idsOf] using h2')
          (by simpa [prevsOf] using h3')]
    simp [mListOf, rmListOf, Bool.or_assoc]

theorem buildMaps_error_shape (applied : List String) :
    ∀ (l : List Migration) (mAcc : List (String × Migration)) (rmAcc : List (String × String))
      (af : Bool) (e : ResolveErr), buildMaps applied l mAcc rmAcc af = .error e →
      e = .emptyID ∨ (∃ i p, e = .duplicateID i p) ∨ ∃ p n, e = .duplicatePrev p n := by
  intro l
  induction l with
  | nil => intro mAcc rmAcc af e h; simp [buildMaps] at h
  | cons m rest ih =>
    intro mAcc rmAcc af e h
    rw [buildMaps] at h
    by_cases hid : m.id = ""
    · rw [if_pos hid] at h
      obtain rfl : ResolveErr.emptyID = e := by simpa using h
      exact Or.inl rfl
    · rw [if_neg hid] at h
      simp only at h
      cases hl1 : lookupA mAcc m.id with
      | some prev =>
        rw [hl1] at h
        simp only [Except.error.injEq] at h
        exact Or.inr (Or.inl ⟨m.id, prev.previous, h.symm⟩)
      | none =>
        rw [hl1] at h
        cases hl2 : lookupA rmAcc m.previous with
        | some curID =>
          rw [hl2] at h
          simp only [Except.error.injEq] at h
          exact Or.inr (Or.inr ⟨m.previous, curID, h.symm⟩)
        | none =>
          rw [hl2] at h
          exact ih _ _ _ e h

theorem buildMaps_af (applied : List String) :
    ∀ (l : List Migration) (mAcc : List (String × Migration)) (rmAcc : List (String × String))
      (af : Bool) res, buildMaps applied l mAcc rmAcc af = .ok res →
      (af = true ∨ ∃ m ∈ l, m.previous ∈ applied) → res.2.2 = true := by
  intro l
  induction l with
  | nil =>
    intro mAcc rmAcc af res h haf
    rcases haf with haf | ⟨m, hm, _⟩
    · obtain rfl : (mAcc, rmAcc, af) = res := by simpa [buildMaps] using h
      exact haf
    · simp at hm
  | cons m rest ih =>
    intro mAcc rmAcc af res h haf
    rw [buildMaps] at h
    by_cases hid : m.id = ""
    · rw [if_pos hid] at h; simp at h
    · rw [if_neg hid] at h
      simp only at h
      cases hl1 : lookupA mAcc m.id with
      | some prev => rw [hl1] at h; simp at h
      | none =>
        rw [hl1] at h
        cases hl2 : lookupA rmAcc m.previous with
        | some curID => rw [hl2] at h; simp at h
        | none =>
          rw [hl2] at h
          rcases haf with haf | ⟨m', hm', hmem⟩
          · exact ih _ _ _ res h (Or.inl (by simp [haf]))
          · rcases List.mem_cons.mp hm' with rfl | hm'
            · exact ih _ _ _ res h (Or.inl (by simp [hmem]))
            · exact ih _ _ _ res h (Or.inr ⟨m', hm', hmem⟩)

theorem findAnchor_all_found (mMap : List (String × Migration)) :
    ∀ (l : List Migration), (∀ m ∈ l, lookupA mMap m.previous ≠ none) →
      ∀ (acc : Option String), findAnchor mMap l acc = .ok acc := by
  intro l
  induction l with
  | nil => intro _ acc; rfl
  | cons m rest ih =>
    intro h acc
    cases hl : lookupA mMap m.previous with
    | none => exact absurd hl (h m (by simp))
    | some v =>
      simp only [findAnchor, hl]
      exact ih (fun m' hm' => h m' (by simp [hm'])) acc

theorem findAnchor_single (mMap : List (String × Migration)) :
    ∀ (l₁ : List Migration) (m₀ : Migration) (l₂ : List Migration),
      (∀ m ∈ l₁ ++ l₂, lookupA mMap m.previous ≠ none) →
      lookupA mMap m₀.previous = none →
      findAnchor mMap (l₁ ++ m₀ :: l₂) none = .ok (some m₀.previous) := by
  intro l₁
  induction l₁ with
  | nil =>
    intro m₀ l₂ h₁ h₀
    rw [List.nil_append]
    simp only [findAnchor, h₀]
    exact findAnchor_all_found mMap l₂ (fun m hm => h₁ m (by simp [hm])) _
  | cons m r ih =>
    intro m₀ l₂ h₁ h₀
    cases hl : lookupA mMap m.previous with
    | none => exact absurd hl (h₁ m (by simp))
    | some v =>
      rw [List.cons_append]
      simp only [findAnchor, hl]
      exact ih m₀ l₂ (fun m' hm' => h₁ m' (by simp at hm' ⊢; tauto)) h₀

theorem findAnchor_error_shape (mMap : List (String × Migration)) :
    ∀ (l : List Migration) (acc : Option String) (e : ResolveErr),
      findAnchor mMap l acc = .error e → ∃ i p, e = .invalidPrev i p := by
  intro l
  induction l with
  | nil => intro acc e h; simp [findAnchor] at h
  | cons m rest ih =>
    intro acc e h
    cases hl : lookupA mMap m.previous with
    | some v =>
      simp only [findAnchor, hl] at h
      exact ih acc e h
    | none =>
      cases acc with
      | some s =>
        simp only [findAnchor, hl, Except.error.injEq] at h
        exact ⟨m.id, m.previous, h.symm⟩
      | none =>
        simp only [findAnchor, hl] at h
        exact ih _ e h

theorem walkChain_congr (mm₁ mm₂ : List (String × Migration)) (rm₁ rm₂ : List (String × String))
    (hm : ∀ k, lookupA mm₁ k = lookupA mm₂ k) (hr : ∀ k, lookupA rm₁ k = lookupA rm₂ k) :
    ∀ (fuel : Nat) (cur : String), walkChain mm₁ rm₁ fuel cur = walkChain mm₂ rm₂ fuel cur := by
  intro fuel
  induction fuel with
  | zero => intro cur; rfl
  | succ f ih =>
    intro cur
    cases hcur : lookupA rm₂ cur with
    | none => simp only [walkChain, hr cur, hcur]
    | some mID =>
      cases hmid : lookupA mm₂ mID with
      | none => simp only [walkChain, hr cur, hcur, hm mID, hmid]
      | some m => simp only [walkChain, hr cur, hcur, hm mID, hmid, ih mID]

theorem walkChain_chain (c : List Migration) (hnd : (idsOf c).Nodup)
    (hpnd : (prevsOf c).Nodup) :
    ∀ (c₂ : List Migration) (a' : String) (fuel : Nat), linked a' c₂ → (∀ m ∈ c₂, m ∈ c) →
      chainEnd a' c₂ ∉ prevsOf c → c₂.length < fuel →
      walkChain (mListOf c) (rmListOf c) fuel a' = some c₂ := by
  intro c₂
  induction c₂ with
  | nil =>
    intro a' fuel _ _ hend hf
    cases fuel with
    | zero => omega
    | succ f =>
      have : lookupA (rmListOf c) a' = none := by
        rw [lookupA_eq_none, rmListOf_keys]
        simpa [chainEnd] using hend
      rw [walkChain, this]
  | cons m rest ih =>
    intro a' fuel hl hmem hend hf
    cases fuel with
    | zero => simp at hf
    | succ f =>
      have hl' := (linked_cons a' m rest).mp hl
      have hmc : m ∈ c := hmem m (by simp)
      have h1 : lookupA (rmListOf c) a' = some m.id := by
        apply lookupA_eq_some_of_mem (by rw [rmListOf_keys]; exact hpnd)
        exact hl'.1 ▸ List.mem_map.mpr ⟨m, hmc, rfl⟩
      have h2 : lookupA (mListOf c) m.id = some m := by
        apply lookupA_eq_some_of_mem (by rw [mListOf_keys]; exact hnd)
        exact List.mem_map.mpr ⟨m, hmc, rfl⟩
      simp only [walkChain, h1, h2,
          ih m.id f hl'.2 (fun m' hm' => hmem m' (by simp [hm']))
            (by simpa [chainEnd] using hend) (by simpa using hf), Option.map]

/-! ### Scan-loop lemmas -/

theorem scanLoop_append (A : List String) (t : String) :
    ∀ (c₁ c₂ : List Migration) (i : Nat) (la : Int) (tg : Nat),
      scanLoop A t (c₁ ++ c₂) i la tg =
        scanLoop A t c₂ (i + c₁.length) (scanLoop A t c₁ i la tg).1
          (scanLoop A t c₁ i la tg).2 := by
  intro c₁
  induction c₁ with
  | nil => intro c₂ i la tg; simp [scanLoop]
  | cons m r ih =>
    intro c₂ i la tg
    rw [List.cons_append, scanLoop, ih, scanLoop]
    have : i + 1 + r.length = i + (m :: r).length := by simp; omega
    rw [this]

theorem scanLoop_la_notmem (A : List String) (t : String) :
    ∀ (c : List Migration) (i : Nat) (la : Int) (tg : Nat), (∀ m ∈ c, m.id ∉ A) →
      (scanLoop A t c i la tg).1 = la := by
  intro c
  induction c with
  | nil => intro i la tg _; rfl
  | cons m r ih =>
    intro i la tg h
    rw [scanLoop, if_neg (h m (by simp))]
    exact ih _ _ _ (fun m' hm' => h m' (by simp [hm']))

theorem scanLoop_tg_notmem (A : List String) (t : String) :
    ∀ (c : List Migration) (i : Nat) (la : Int) (tg : Nat), (∀ m ∈ c, m.id ≠ t) →
      (scanLoop A t c i la tg).2 = tg := by
  intro c
  induction c with
  | nil => intro i la tg _; rfl
  | cons m r ih =>
    intro i la tg h
    rw [scanLoop, if_neg (h m (by simp))]
    exact ih _ _ _ (fun m' hm' => h m' (by simp [hm']))

theorem scanLoop_la_allmem (A : List String) (t : String) :
    ∀ (c : List Migration), c ≠ [] → (∀ m ∈ c, m.id ∈ A) →
      ∀ (i : Nat) (la : Int) (tg : Nat),
        (scanLoop A t c i la tg).1 = (i : Int) + c.length - 1 := by
  intro c
  induction c with
  | nil => intro h; exact absurd rfl h
  | cons m r ih =>
    intro _ h i la tg
    rw [scanLoop, if_pos (h m (by simp))]
    by_cases hr : r = []
    · subst hr; simp [scanLoop]
    · rw [ih hr (fun m' hm' => h m' (by simp [hm']))]
      simp only [List.length_cons]
      push_cast
      omega

theorem scanLoop_la_lb (A : List String) (t : String) :
    ∀ (c : List Migration) (i : Nat) (la : Int) (tg : Nat), la < (i : Int) →
      la ≤ (scanLoop A t c i la tg).1 := by
  intro c
  induction c with
  | nil => intro i la tg _; exact le_refl la
  | cons m r ih =>
    intro i la tg hla
    rw [scanLoop]
    by_cases hm : m.id ∈ A
    · rw [if_pos hm]
      calc la ≤ (i : Int) := le_of_lt hla
        _ ≤ _ := ih (i + 1) (i : Int) _ (by push_cast; omega)
    · rw [if_neg hm]
      exact ih (i + 1) la _ (by push_cast; omega)

theorem scanLoop_la_ub (A : List String) (t : String) :
    ∀ (c : List Migration) (i : Nat) (la : Int) (tg : Nat), la < (i : Int) →
      (scanLoop A t c i la tg).1 < (i : Int) + c.length := by
  intro c
  induction c with
  | nil => intro i la tg hla; simpa using lt_of_lt_of_le hla (by simp)
  | cons m r ih =>
    intro i la tg hla
    rw [scanLoop]
    have hstep : ∀ la' : Int, la' < ((i + 1 : Nat) : Int) →
        (scanLoop A t r (i + 1) la' (if m.id = t then i + 1 else tg)).1 <
          (i : Int) + (m :: r).length := by
      intro la' h'
      have := ih (i + 1) la' (if m.id = t then i + 1 else tg) h'
      simp only [List.length_cons]
      push_cast at this ⊢
      omega
    by_cases hm : m.id ∈ A
    · rw [if_pos hm]; exact hstep (i : Int) (by push_cast; omega)
    · rw [if_neg hm]; exact hstep la (by push_cast; omega)

/-! ### Resolution of a valid chain -/

theorem validChain_prevs_nodup {a : String} {c : List Migration} (hv : validChain a c) :
    (prevsOf c).Nodup :=
  chain_prevs_nodup c a hv.1 (List.nodup_cons.mpr ⟨hv.2.2.2, hv.2.1⟩)

theorem chain_anchor {a : String} {c : List Migration} (hv : validChain a c) (hne : c ≠ []) :
    findAnchor (mListOf c) c none = .ok (some a) := by
  obtain ⟨hl, hnd, hids, ha⟩ := hv
  obtain ⟨m₁, rest, rfl⟩ := List.exists_cons_of_ne_nil hne
  have hl' := (linked_cons a m₁ rest).mp hl
  have h₀ : lookupA (mListOf (m₁ :: rest)) m₁.previous = none := by
    rw [lookupA_eq_none, mListOf_keys, hl'.1]; exact ha
  have h₁ : ∀ m ∈ ([] : List Migration) ++ rest,
      lookupA (mListOf (m₁ :: rest)) m.previous ≠ none := by
    intro m hm hnone
    rw [lookupA_eq_none, mListOf_keys] at hnone
    exact hnone (linked_tail_prev rest m₁ a hl m (by simpa using hm))
  have := findAnchor_single (mListOf (m₁ :: rest)) [] m₁ rest h₁ h₀
  rw [List.nil_append] at this
  rw [this, hl'.1]

theorem chain_walk {a : String} {c : List Migration} (hv : validChain a c) :
    walkChain (mListOf c) (rmListOf c) (c.length + 1) a = some c := by
  obtain ⟨hl, hnd, _, ha⟩ := hv
  have hcons : (a :: idsOf c).Nodup := List.nodup_cons.mpr ⟨ha, hnd⟩
  exact walkChain_chain c hnd (validChain_prevs_nodup ⟨hl, hnd, ‹_›, ha⟩) c a (c.length + 1)
    hl (fun _ hm => hm) (chainEnd_not_mem_prevs c a hl hcons) (by omega)

theorem resolve_valid (a : String) (c : List Migration) (applied : List String) (target : String)
    (hv : validChain a c) (hne : c ≠ []) :
    findMigrationsToApply c applied target =
      if (applied.isEmpty || c.any fun m => decide (m.previous ∈ applied)) = false then
        .err .notCorrelated
      else if target ≠ "" ∧ target ∉ idsOf c then .err (.targetNotFound target)
      else scanSlice applied target c := by
  have hpnd : (prevsOf c).Nodup := validChain_prevs_nodup hv
  have hb := buildMaps_ok applied c [] [] applied.isEmpty hv.2.2.1
    (by simpa using hv.2.1) (by simpa using hpnd)
  have hanchor := chain_anchor hv hne
  have hwalk := chain_walk hv
  simp only [findMigrationsToApply, hb, List.nil_append, hanchor]
  simp only [resolveAfterAnchor]
  by_cases haf : (applied.isEmpty || c.any fun m => decide (m.previous ∈ applied)) = false
  · rw [if_pos haf, if_pos haf]
  · rw [if_neg haf, if_neg haf]
    have htgt_iff : (target ≠ "" ∧ lookupA (mListOf c) target = none) ↔
        (target ≠ "" ∧ target ∉ idsOf c) := by
      rw [lookupA_eq_none, mListOf_keys]
    by_cases h2 : target ≠ "" ∧ target ∉ idsOf c
    · rw [if_pos (htgt_iff.mpr h2), if_pos h2]
    · rw [if_neg (fun hx => h2 (htgt_iff.mp hx)), if_neg h2]
      simp only [hwalk]

theorem perm_any {l₁ l₂ : List Migration} (hp : List.Perm l₁ l₂) (p : Migration → Bool) :
    l₁.any p = l₂.any p := by
  cases h : l₂.any p with
  | true =>
    obtain ⟨x, hx, hpx⟩ := List.any_eq_true.mp h
    exact List.any_eq_true.mpr ⟨x, hp.mem_iff.mpr hx, hpx⟩
  | false =>
    cases h1 : l₁.any p with
    | false => rfl
    | true =>
      obtain ⟨x, hx, hpx⟩ := List.any_eq_true.mp h1
      have h2 := List.any_eq_true.mpr ⟨x, hp.mem_iff.mp hx, hpx⟩
      rw [h] at h2
      exact Bool.noConfusion h2

theorem resolve_perm (a : String) (c l : List Migration) (applied : List String) (target : String)
    (hv : validChain a c) (hp : List.Perm l c) :
    findMigrationsToApply l applied target = findMigrationsToApply c applied target := by
  obtain ⟨hl, hnd, hids, ha⟩ := hv
  by_cases hcnil : c = []
  · subst hcnil
    rw [hp.eq_nil]
  · have hpnd : (prevsOf c).Nodup := validChain_prevs_nodup ⟨hl, hnd, hids, ha⟩
    have hpids : List.Perm (idsOf l) (idsOf c) := hp.map Migration.id
    have hpprevs : List.Perm (prevsOf l) (prevsOf c) := hp.map Migration.previous
    have hnd_l : (idsOf l).Nodup := hpids.nodup_iff.mpr hnd
    have hpnd_l : (prevsOf l).Nodup := hpprevs.nodup_iff.mpr hpnd
    have hids_l : ∀ m ∈ l, m.id ≠ "" := fun m hm => hids m (hp.mem_iff.mp hm)
    have hb_l := buildMaps_ok applied l [] [] applied.isEmpty hids_l
      (by simpa using hnd_l) (by simpa using hpnd_l)
    have hb_c := buildMaps_ok applied c [] [] applied.isEmpty hids
      (by simpa using hnd) (by simpa using hpnd)
    have hany : (l.any fun m => decide (m.previous ∈ applied)) =
        (c.any fun m => decide (m.previous ∈ applied)) := perm_any hp _
    have hmlook : ∀ k, lookupA (mListOf l) k = lookupA (mListOf c) k := fun k =>
      lookupA_perm (by simpa using hnd_l) (hp.map _) k
    have hrlook : ∀ k, lookupA (rmListOf l) k = lookupA (rmListOf c) k := fun k =>
      lookupA_perm (by simpa using hpnd_l) (hp.map _) k
    have hanch_c : findAnchor (mListOf c) c none = .ok (some a) :=
      chain_anchor ⟨hl, hnd, hids, ha⟩ hcnil
    obtain ⟨m₁, rest, hc⟩ := List.exists_cons_of_ne_nil hcnil
    have hl' : m₁.previous = a ∧ linked m₁.id rest := (linked_cons a m₁ rest).mp (hc ▸ hl)
    have hcnodup : c.Nodup := List.Nodup.of_map Migration.id hnd
    have hlnodup : l.Nodup := hp.nodup_iff.mpr hcnodup
    have hm₁l : m₁ ∈ l := hp.mem_iff.mpr (hc ▸ List.mem_cons_self m₁ rest)
    obtain ⟨l₁, l₂, hldec⟩ := List.append_of_mem hm₁l
    have hanch_l : findAnchor (mListOf l) l none = .ok (some a) := by
      have hm₁notmem : m₁ ∉ l₁ ++ l₂ := by
        rw [hldec] at hlnodup
        obtain ⟨hn1, hn2, hdisj⟩ := List.nodup_append.mp hlnodup
        intro hmem
        rcases List.mem_append.mp hmem with hmem | hmem
        · exact hdisj hmem (List.mem_cons_self m₁ l₂)
        · exact (List.nodup_cons.mp hn2).1 hmem
      have h₁ : ∀ m ∈ l₁ ++ l₂, lookupA (mListOf l) m.previous ≠ none := by
        intro m hm hnone
        rw [lookupA_eq_none, mListOf_keys] at hnone
        have hml : m ∈ l := by
          rw [hldec]
          rcases List.mem_append.mp hm with h | h
          · exact List.mem_append.mpr (Or.inl h)
          · exact List.mem_append.mpr (Or.inr (List.mem_cons_of_mem m₁ h))
        have hmc : m ∈ c := hp.mem_iff.mp hml
        rw [hc] at hmc
        rcases List.mem_cons.mp hmc with rfl | hmr
        · exact hm₁notmem hm
        · have := linked_tail_prev rest m₁ a (hc ▸ hl) m hmr
          rw [← hc] at this
          exact hnone (hpids.mem_iff.mpr this)
      have h₀ : lookupA (mListOf l) m₁.previous = none := by
        rw [lookupA_eq_none, mListOf_keys, hl'.1]
        intro hmem
        exact ha (hpids.mem_iff.mp hmem)
      have := findAnchor_single (mListOf l) l₁ m₁ l₂ h₁ h₀
      rw [← hldec] at this
      rw [this, hl'.1]
    have hwalk_c : walkChain (mListOf c) (rmListOf c) (c.length + 1) a = some c :=
      chain_walk ⟨hl, hnd, hids, ha⟩
    have hwalk_l : walkChain (mListOf l) (rmListOf l) (c.length + 1) a = some c := by
      rw [walkChain_congr (mListOf l) (mListOf c) (rmListOf l) (rmListOf c) hmlook hrlook]
      exact hwalk_c
    simp only [findMigrationsToApply, hb_l, hb_c, List.nil_append, hanch_l, hanch_c]
    simp only [resolveAfterAnchor, hany, hmlook target, hp.length_eq, hwalk_l, hwalk_c]

theorem scanLoop_la_ge (A : List String) (t : String) :
    ∀ (c : List Migration) (k : Nat) (hk : k < c.length) (i : Nat) (la : Int) (tg : Nat),
      la < (i : Int) → (c.get ⟨k, hk⟩).id ∈ A →
      (i : Int) + k ≤ (scanLoop A t c i la tg).1 := by
  intro c
  induction c with
  | nil => intro k hk; simp at hk
  | cons m r ih =>
    intro k hk i la tg hla hmem
    cases k with
    | zero =>
      have hm : m.id ∈ A := hmem
      rw [scanLoop, if_pos hm]
      have := scanLoop_la_lb A t r (i + 1) (i : Int) (if m.id = t then i + 1 else tg)
        (by push_cast; omega)
      push_cast
      omega
    | succ k' =>
      rw [scanLoop]
      have hk' : k' < r.length := by simpa using hk
      have hmem' : (r.get ⟨k', hk'⟩).id ∈ A := by simpa using hmem
      by_cases hm : m.id ∈ A
      · rw [if_pos hm]
        have := ih k' hk' (i + 1) (i : Int) (if m.id = t then i + 1 else tg)
          (by push_cast; omega) hmem'
        push_cast at this ⊢
        omega
      · rw [if_neg hm]
        have := ih k' hk' (i + 1) la (if m.id = t then i + 1 else tg)
          (by push_cast; omega) hmem'
        push_cast at this ⊢
        omega

theorem findAnchor_no_error (mMap : List (String × Migration)) :
    ∀ (l : List Migration) (acc : Option String),
      (l.filter fun m => decide (lookupA mMap m.previous = none)).length +
        (match acc with | some _ => 1 | none => 0) ≤ 1 →
      ∃ o, findAnchor mMap l acc = .ok o := by
  intro l
  induction l with
  | nil => intro acc _; exact ⟨acc, rfl⟩
  | cons m rest ih =>
    intro acc hlen
    cases hl : lookupA mMap m.previous with
    | some v =>
      simp only [findAnchor, hl]
      apply ih
      have hfil : (m :: rest).filter (fun m => decide (lookupA mMap m.previous = none)) =
          rest.filter (fun m => decide (lookupA mMap m.previous = none)) := by
        simp [List.filter_cons, hl]
      rw [hfil] at hlen
      exact hlen
    | none =>
      have hfil : (m :: rest).filter (fun m => decide (lookupA mMap m.previous = none)) =
          m :: rest.filter (fun m => decide (lookupA mMap m.previous = none)) := by
        simp [List.filter_cons, hl]
      rw [hfil] at hlen
      cases acc with
      | some s => simp at hlen
      | none =>
        simp only [findAnchor, hl]
        apply ih
        simpa using hlen

theorem scanSlice_ne_err (applied : List String) (target : String) (ordered : List Migration)
    (e : ResolveErr) : scanSlice applied target ordered ≠ .err e := by
  simp only [scanSlice]
  split <;> simp

/-! ### Claim theorems -/

/-- C1 (code bug): the spec requires a cyclic migration set to be rejected
with a validation error before any statement executes, but the resolver does
not do so.  A two-cycle `{b ← c, c ← b}` placed beside a validly anchored
migration `a` is silently accepted — the resolver returns `[a]` with no error
and drops the cycle — and the pure two-cycle on its own leaves the anchor
pointer unassigned so the forward walk dereferences a nil pointer (crash),
which is not a returned validation error either. -/
theorem cycle_not_rejected :
    findMigrationsToApply [mA, mB, mC] [] "" = .ok [mA] ∧
      findMigrationsToApply [mB, mC] [] "" = .crash :=
  ⟨by decide, by decide⟩

/-- C3 (corrected): on a valid non-empty chain, when the reachability
precondition holds (empty applied set, or some migration's `previous` is an
applied id) and the target is empty or a known id, `targetIndex - 1 ≤
latestApplied` makes the resolver return an empty result with no error. -/
theorem resolve_noop_when_target_behind (a : String) (c : List Migration)
    (applied : List String) (target : String) (hv : validChain a c) (hne : c ≠ [])
    (hreach : applied = [] ∨ ∃ m ∈ c, m.previous ∈ applied)
    (htgt : target = "" ∨ target ∈ idsOf c)
    (hcond : ((scanLoop applied target c 0 (-1) c.length).2 : Int) - 1 ≤
      (scanLoop applied target c 0 (-1) c.length).1) :
    findMigrationsToApply c applied target = .ok [] := by
  rw [resolve_valid a c applied target hv hne]
  have haf : (applied.isEmpty || c.any fun m => decide (m.previous ∈ applied)) = true := by
    rcases hreach with rfl | ⟨m, hm, hmem⟩
    · simp
    · have : (c.any fun m => decide (m.previous ∈ applied)) = true :=
        List.any_eq_true.mpr ⟨m, hm, by simpa using hmem⟩
      simp [this]
  rw [if_neg (by simp [haf])]
  have h2 : ¬(target ≠ "" ∧ target ∉ idsOf c) := by
    rcases htgt with rfl | hmem
    · simp
    · intro hx; exact hx.2 hmem
  rw [if_neg h2]
  simp only [scanSlice]
  rw [if_pos hcond]

/-- Witness for C3: the fully-applied two-migration chain resolves to the
empty result. -/
theorem resolve_noop_when_target_behind_witness :
    (((scanLoop ["id1", "id2"] "" [s1, s2] 0 (-1) ([s1, s2] : List Migration).length).2 : Int) -
        1 ≤ (scanLoop ["id1", "id2"] "" [s1, s2] 0 (-1) ([s1, s2] : List Migration).length).1) ∧
      findMigrationsToApply [s1, s2] ["id1", "id2"] "" = .ok [] :=
  ⟨by decide,
    resolve_noop_when_target_behind "anchor" [s1, s2] ["id1", "id2"] ""
      ⟨⟨rfl, rfl, trivial⟩, by decide, by decide, by decide⟩ (by decide)
      (Or.inr ⟨s2, by decide, by decide⟩) (Or.inl rfl) (by decide)⟩

/-- Counterexample for C3 as frozen: a valid single-migration chain whose
applied set equals the full id set does not return the empty result — the
correlation check fires first and returns an error. -/
theorem resolve_noop_counterexample :
    findMigrationsToApply [mA] ["a"] "" = .err .notCorrelated ∧
      findMigrationsToApply [mA] ["a"] "" ≠ .ok [] :=
  ⟨by decide, by decide⟩

theorem scanLoop_prefix_applied (l₁ l₂ : List Migration) (n : Nat)
    (hnd : (idsOf (l₁ ++ l₂)).Nodup) :
    (scanLoop (idsOf l₁) "" (l₁ ++ l₂) 0 (-1) n).1 = (l₁.length : Int) - 1 := by
  rw [scanLoop_append]
  have h1 : (scanLoop (idsOf l₁) "" l₁ 0 (-1) n).1 = (l₁.length : Int) - 1 := by
    cases l₁ with
    | nil => simp [scanLoop]
    | cons m r =>
      rw [scanLoop_la_allmem (idsOf (m :: r)) "" (m :: r) (by simp)
        (fun m' hm' => List.mem_map.mpr ⟨m', hm', rfl⟩) 0 (-1) n]
      push_cast
      omega
  rw [scanLoop_la_notmem, h1]
  intro m hm hmem
  rw [idsOf, List.map_append] at hnd
  obtain ⟨_, _, hdisj⟩ := List.nodup_append.mp hnd
  exact hdisj hmem (List.mem_map.mpr ⟨m, hm, rfl⟩)

theorem chain_take_correlates (a : String) (c : List Migration) (K : Nat)
    (hl : linked a c) (h2 : 2 ≤ c.length) (hK : 1 ≤ K) :
    ∃ m ∈ c, m.previous ∈ idsOf (c.take K) := by
  cases c with
  | nil => simp at h2
  | cons m₁ c' =>
    cases c' with
    | nil => simp at h2
    | cons m₂ r =>
      have hm2 : m₂.previous = m₁.id :=
        ((linked_cons m₁.id m₂ r).mp ((linked_cons a m₁ (m₂ :: r)).mp hl).2).1
      refine ⟨m₂, by simp, ?_⟩
      cases K with
      | zero => omega
      | succ K' =>
        rw [hm2, List.take_succ_cons]
        simp [idsOf]

/-- C4 (corrected): on a valid non-empty chain of length `N`, resolving with
the applied set equal to the ids of the first `K` migrations (empty target)
returns exactly the remaining tail `drop K` in chain order, provided `K = 0`
or `N ≥ 2` (so the correlation check can pass). -/
theorem resolve_after_partial_apply (a : String) (c : List Migration) (K : Nat)
    (hv : validChain a c) (hne : c ≠ []) (hK : K ≤ c.length) (hcase : K = 0 ∨ 2 ≤ c.length) :
    findMigrationsToApply c (idsOf (c.take K)) "" = .ok (c.drop K) := by
  rw [resolve_valid a c (idsOf (c.take K)) "" hv hne]
  have haf : ((idsOf (c.take K)).isEmpty ||
      c.any fun m => decide (m.previous ∈ idsOf (c.take K))) = true := by
    cases K with
    | zero => simp [idsOf]
    | succ K' =>
      have h2 : 2 ≤ c.length := by
        rcases hcase with h0 | h2
        · exact absurd h0 (Nat.succ_ne_zero K')
        · exact h2
      obtain ⟨m, hm, hmem⟩ := chain_take_correlates a c (K' + 1) hv.1 h2 (by omega)
      have : (c.any fun m => decide (m.previous ∈ idsOf (c.take (K' + 1)))) = true :=
        List.any_eq_true.mpr ⟨m, hm, by simpa using hmem⟩
      simp [this]
  rw [if_neg (by simp [haf]), if_neg (by simp)]
  simp only [scanSlice]
  have htg : (scanLoop (idsOf (c.take K)) "" c 0 (-1) c.length).2 = c.length :=
    scanLoop_tg_notmem _ _ c 0 (-1) c.length (fun m hm => hv.2.2.1 m hm)
  have hla : (scanLoop (idsOf (c.take K)) "" c 0 (-1) c.length).1 = (K : Int) - 1 := by
    have := scanLoop_prefix_applied (c.take K) (c.drop K) c.length
      (by rw [List.take_append_drop]; exact hv.2.1)
    rw [List.take_append_drop] at this
    rw [this, List.length_take, Nat.min_eq_left hK]
  rw [hla, htg]
  by_cases hKN : K = c.length
  · rw [if_pos (by omega), hKN, List.drop_length]
  · have hKlt : K < c.length := lt_of_le_of_ne hK hKN
    rw [if_neg (by omega)]
    have htn : ((K : Int) - 1 + 1).toNat = K := by omega
    rw [htn, ← List.length_drop, List.take_length]

/-- Witness for C4: applying the first migration of a two-migration chain and
re-resolving yields exactly the tail. -/
theorem resolve_after_partial_apply_witness :
    (1 : Nat) ≤ ([s1, s2] : List Migration).length ∧
      findMigrationsToApply [s1, s2] (idsOf (List.take 1 [s1, s2])) "" =
        .ok (List.drop 1 [s1, s2]) :=
  ⟨by decide,
    resolve_after_partial_apply "anchor" [s1, s2] 1
      ⟨⟨rfl, rfl, trivial⟩, by decide, by decide, by decide⟩ (by decide) (by decide)
      (Or.inr (by decide))⟩

/-- Counterexample for C4 as frozen: a valid chain of length `N = 1` with
`K = 1` (applied set = the whole chain) does not return the empty remaining
tail — the correlation check fires and returns an error. -/
theorem resolve_after_partial_apply_counterexample :
    findMigrationsToApply [s1] (idsOf (List.take 1 [s1])) "" = .err .notCorrelated ∧
      findMigrationsToApply [s1] (idsOf (List.take 1 [s1])) "" ≠ .ok (List.drop 1 [s1]) :=
  ⟨by decide, by decide⟩

/-- C5 (confirmed): for a valid migration set, the resolver's result — slice
and order included — is the same for every permutation of the input list: it
is a function of the previous/id graph only, never of declaration order. -/
theorem resolve_order_independent (a : String) (c l : List Migration)
    (applied : List String) (target : String) (hv : validChain a c) (hp : List.Perm l c) :
    findMigrationsToApply l applied target = findMigrationsToApply c applied target :=
  resolve_perm a c l applied target hv hp

/-- Witness for C5: a rotated three-migration chain resolves identically. -/
theorem resolve_order_independent_witness :
    List.Perm [s2, s3, s1] [s1, s2, s3] ∧
      findMigrationsToApply [s2, s3, s1] ["id1"] "" =
        findMigrationsToApply [s1, s2, s3] ["id1"] "" :=
  ⟨by decide,
    resolve_order_independent "anchor" [s1, s2, s3] [s2, s3, s1] ["id1"] ""
      ⟨⟨rfl, rfl, rfl, trivial⟩, by decide, by decide, by decide⟩ (by decide)⟩

/-- C9 (confirmed): whatever slice the resolver returns starts after the
highest-index applied migration: if the migration at chain index `k` is
applied, then no migration at an index below `k` appears in the returned
slice, applied or not — such migrations are silently skipped. -/
theorem resolve_skips_unapplied_before_latest (a : String) (c : List Migration)
    (applied : List String) (target : String) (k : Nat) (hk : k < c.length)
    (hv : validChain a c) (happ : (c.get ⟨k, hk⟩).id ∈ applied) (r : List Migration)
    (hr : findMigrationsToApply c applied target = .ok r) :
    ∀ (i : Nat) (hi : i < c.length), i < k → c.get ⟨i, hi⟩ ∉ r := by
  intro i hi hik
  have hne : c ≠ [] := by
    intro h
    rw [h] at hk
    simp at hk
  rw [resolve_valid a c applied target hv hne] at hr
  by_cases haf : (applied.isEmpty || c.any fun m => decide (m.previous ∈ applied)) = false
  · rw [if_pos haf] at hr
    simp at hr
  · rw [if_neg haf] at hr
    by_cases h2 : target ≠ "" ∧ target ∉ idsOf c
    · rw [if_pos h2] at hr
      simp at hr
    · rw [if_neg h2] at hr
      simp only [scanSlice] at hr
      by_cases hcond : ((scanLoop applied target c 0 (-1) c.length).2 : Int) - 1 ≤
          (scanLoop applied target c 0 (-1) c.length).1
      · rw [if_pos hcond] at hr
        obtain rfl : ([] : List Migration) = r := by simpa using hr
        simp
      · rw [if_neg hcond] at hr
        obtain rfl :
            ((c.drop ((scanLoop applied target c 0 (-1) c.length).1 + 1).toNat).take
              ((scanLoop applied target c 0 (-1) c.length).2 -
                ((scanLoop applied target c 0 (-1) c.length).1 + 1).toNat)) = r := by
          simpa using hr
        intro hmem
        have hmem' : c.get ⟨i, hi⟩ ∈
            c.drop ((scanLoop applied target c 0 (-1) c.length).1 + 1).toNat :=
          List.mem_of_mem_take hmem
        have hge : (k : Int) ≤ (scanLoop applied target c 0 (-1) c.length).1 := by
          have := scanLoop_la_ge applied target c k hk 0 (-1) c.length (by omega)
            (by simpa using happ)
          simpa using this
        obtain ⟨⟨t, ht⟩, hgt⟩ := List.mem_iff_get.mp hmem'
        rw [List.get_eq_getElem, List.getElem_drop] at hgt
        have hcnd : c.Nodup := List.Nodup.of_map Migration.id hv.2.1
        have heq :
            ((scanLoop applied target c 0 (-1) c.length).1 + 1).toNat + t = i :=
          (List.Nodup.getElem_inj_iff hcnd).mp hgt
        omega
/-- Witness for C9: with only the second chain migration applied, the
unapplied first migration is skipped, not returned. -/
theorem resolve_skips_unapplied_before_latest_witness :
    findMigrationsToApply [s1, s2, s3] ["id2"] "" = .ok [s3] ∧
      ([s1, s2, s3] : List Migration).get ⟨0, by decide⟩ ∉ ([s3] : List Migration) :=
  ⟨by decide,
    resolve_skips_unapplied_before_latest "anchor" [s1, s2, s3] ["id2"] "" 1 (by decide)
      ⟨⟨rfl, rfl, rfl, trivial⟩, by decide, by decide, by decide⟩ (by decide) [s3]
      (by decide) 0 (by decide) (by decide)⟩

/-- C6 (corrected): provided the structural checks that run first all pass
(no empty id, no duplicate id, no duplicate previous, at most one dangling
previous), a non-empty applied set none of whose ids equals any migration's
`previous` yields exactly the "provided migration does not correlate with
already applied migrations" error; conversely, with an empty applied set or
some applied id matching some `previous`, that error is never returned, under
no side conditions at all. -/
theorem resolver_correlation_check :
    (∀ (migs : List Migration) (applied : List String) (target : String),
      (∀ m ∈ migs, m.id ≠ "") → (idsOf migs).Nodup → (prevsOf migs).Nodup →
      (migs.filter fun m => decide (m.previous ∉ idsOf migs)).length ≤ 1 →
      applied ≠ [] → (∀ m ∈ migs, m.previous ∉ applied) →
      findMigrationsToApply migs applied target = .err .notCorrelated) ∧
    (∀ (migs : List Migration) (applied : List String) (target : String),
      (applied = [] ∨ ∃ m ∈ migs, m.previous ∈ applied) →
      findMigrationsToApply migs applied target ≠ .err .notCorrelated) ∧
    ResolveErr.notCorrelated.message =
      "provided migration does not correlate with already applied migrations" := by
  refine ⟨?_, ?_, rfl⟩
  · intro migs applied target h1 h2 h3 hdangle hne hnomem
    have hb := buildMaps_ok applied migs [] [] false h1 (by simpa using h2)
      (by simpa using h3)
    have hfil : (migs.filter fun m => decide (lookupA (mListOf migs) m.previous = none)) =
        (migs.filter fun m => decide (m.previous ∉ idsOf migs)) := by
      apply List.filter_congr
      intro m _
      apply decide_eq_decide.mpr
      rw [lookupA_eq_none, mListOf_keys]
    obtain ⟨o, hanch⟩ := findAnchor_no_error (mListOf migs) migs none
      (by rw [hfil]; simpa using hdangle)
    have hisEmpty : applied.isEmpty = false := by
      cases applied with
      | nil => exact absurd rfl hne
      | cons x xs => rfl
    have hany : (migs.any fun m => decide (m.previous ∈ applied)) = false := by
      cases h : migs.any fun m => decide (m.previous ∈ applied)
      · rfl
      · obtain ⟨m, hm, hmem⟩ := List.any_eq_true.mp h
        exact absurd (of_decide_eq_true hmem) (hnomem m hm)
    simp [findMigrationsToApply, hb, hanch, resolveAfterAnchor, hisEmpty, hany]
  · intro migs applied target hreach hcontra
    cases hb : buildMaps applied migs [] [] applied.isEmpty with
    | error e =>
      simp only [findMigrationsToApply, hb] at hcontra
      rcases buildMaps_error_shape applied migs [] [] applied.isEmpty e hb with
        rfl | ⟨i, p, rfl⟩ | ⟨p, n, rfl⟩ <;> simp at hcontra
    | ok res =>
      obtain ⟨mm, rm, af⟩ := res
      have haf : af = true := by
        refine buildMaps_af applied migs [] [] applied.isEmpty (mm, rm, af) hb ?_
        rcases hreach with rfl | h
        · exact Or.inl (by simp)
        · exact Or.inr h
      subst haf
      cases hanch : findAnchor mm migs none with
      | error e =>
        simp only [findMigrationsToApply, hb, hanch] at hcontra
        obtain ⟨i, p, rfl⟩ := findAnchor_error_shape mm migs none e hanch
        simp at hcontra
      | ok o =>
        simp only [findMigrationsToApply, hb, hanch, resolveAfterAnchor] at hcontra
        rw [if_neg (by simp)] at hcontra
        by_cases h2 : target ≠ "" ∧ lookupA mm target = none
        · rw [if_pos h2] at hcontra
          simp at hcontra
        · rw [if_neg h2] at hcontra
          cases o with
          | none => simp at hcontra
          | some anchor =>
            cases hw : walkChain mm rm (migs.length + 1) anchor with
            | none =>
              simp only [hw] at hcontra
              simp at hcontra
            | some ordered =>
              simp only [hw] at hcontra
              exact scanSlice_ne_err applied target ordered _ hcontra

/-- Witness for C6: an uncorrelated applied set on a valid two-chain yields
the correlation error; a correlated one never does. -/
theorem resolver_correlation_check_witness :
    findMigrationsToApply [s1, s2] ["zzz"] "" = .err .notCorrelated ∧
      findMigrationsToApply [s1, s2] ["id1"] "" ≠ .err .notCorrelated :=
  ⟨resolver_correlation_check.1 [s1, s2] ["zzz"] "" (by decide) (by decide) (by decide)
      (by decide) (by decide) (by decide),
    resolver_correlation_check.2.1 [s1, s2] ["id1"] "" (Or.inr (by decide))⟩

/-- Counterexample for C6 as frozen: with a non-empty, uncorrelated applied
set, a structurally invalid input (here an empty migration id) is reported
with the structural error, not the correlation error the claim promises
unconditionally. -/
theorem correlation_error_preempted :
    findMigrationsToApply [mEmpty] ["x"] "" = .err .emptyID ∧
      findMigrationsToApply [mEmpty] ["x"] "" ≠ .err .notCorrelated :=
  ⟨by decide, by decide⟩

/-- C8 (confirmed): when every supplied migration's `previous` matches some
supplied id and the earlier checks pass with an empty applied set — in
particular for the empty migration list — the anchor pointer is never
assigned and the forward walk dereferences it: the resolver crashes rather
than returning a result or an error, and the crash is reachable from
`UpgradeToLatest` after the log table has been ensured. -/
theorem resolver_nil_anchor_crash :
    findMigrationsToApply [] [] "" = .crash ∧
    (∀ (migs : List Migration), (∀ m ∈ migs, m.id ≠ "") → (idsOf migs).Nodup →
      (prevsOf migs).Nodup → (∀ m ∈ migs, m.previous ∈ idsOf migs) →
      findMigrationsToApply migs [] "" = .crash) ∧
    (∀ env : UpgradeEnv, env.appliedRead = .ok [] →
      (sqliteSupp.ensureMigrationLog env.connExec).2 = none →
      (sqliteSupp.ensureFKChecksEnabled env.connExec).2 = none →
      UpgradeToLatest env DialectSQLite [] = .crash nilDerefMsg) := by
  refine ⟨by decide, ?_, ?_⟩
  · intro migs h1 h2 h3 hall
    have hb := buildMaps_ok [] migs [] [] true h1 (by simpa using h2) (by simpa using h3)
    have hanch : findAnchor (mListOf migs) migs none = .ok none := by
      apply findAnchor_all_found
      intro m hm hnone
      rw [lookupA_eq_none, mListOf_keys] at hnone
      exact hnone (hall m hm)
    simp [findMigrationsToApply, hb, hanch, resolveAfterAnchor]
  · intro env hread hlog hfk
    have hnd : newDialectSupp DialectSQLite = some sqliteSupp := by
      rw [newDialectSupp, if_pos rfl]
    have hf : findMigrationsToApply [] [] "" = .crash := by decide
    simp [UpgradeToLatest, Upgrade, hnd, hlog, hfk, hread, hf]

/-- Witness for C8: the pure two-cycle crashes the resolver, and
`UpgradeToLatest` with zero migrations crashes after the quiet environment's
log-table step succeeded. -/
theorem resolver_nil_anchor_crash_witness :
    findMigrationsToApply [mB, mC] [] "" = .crash ∧
      UpgradeToLatest quietUpgradeEnv DialectSQLite [] = .crash nilDerefMsg :=
  ⟨resolver_nil_anchor_crash.2.1 [mB, mC] (by decide) (by decide) (by decide) (by decide),
    resolver_nil_anchor_crash.2.2 quietUpgradeEnv rfl rfl rfl⟩

/-- C7 (confirmed): on any dialect name other than `"sqlite3"` and
`"mysql"`, `Upgrade` (and `UpgradeToLatest`) ends in the dialect panic —
modelled as a `crash`, not a normal `err` return — and the outcome is
completely independent of the database environment: no database access
happens before the failure. -/
theorem unknown_dialect_fatal (dialect : String) (h1 : dialect ≠ DialectSQLite)
    (h2 : dialect ≠ DialectMySQL) :
    (∀ (env : UpgradeEnv) (target : String) (migs : List Migration),
      Upgrade env dialect target migs =
        .crash ("unsupported dialect: \"" ++ dialect ++ "\"")) ∧
    (∀ (env env' : UpgradeEnv) (target : String) (migs : List Migration),
      Upgrade env dialect target migs = Upgrade env' dialect target migs) ∧
    (∀ (env : UpgradeEnv) (migs : List Migration),
      UpgradeToLatest env dialect migs =
        .crash ("unsupported dialect: \"" ++ dialect ++ "\"")) := by
  have hnd : newDialectSupp dialect = none := by
    rw [newDialectSupp, if_neg h1, if_neg h2]
  refine ⟨?_, ?_, ?_⟩
  · intro env target migs
    simp [Upgrade, hnd]
  · intro env env' target migs
    simp [Upgrade, hnd]
  · intro env migs
    simp [UpgradeToLatest, Upgrade, hnd]

/-- Witness for C7: the dialect name "postgres" crashes immediately. -/
theorem unknown_dialect_fatal_witness :
    ("postgres" ≠ DialectSQLite ∧ "postgres" ≠ DialectMySQL) ∧
      Upgrade quietUpgradeEnv "postgres" "" [] =
        .crash ("unsupported dialect: \"" ++ "postgres" ++ "\"") :=
  ⟨⟨by decide, by decide⟩,
    (unknown_dialect_fatal "postgres" (by decide) (by decide)).1 quietUpgradeEnv "" []⟩

/-- C2 (confirmed): for a migration with `DisableFK` set whose disable step
succeeded, `applyMigration` always runs the dialect enable step after the
transactional region — whatever the transaction's outcome — and an error from
that enable step is the error returned to the caller, replacing the
migration's own result. -/
theorem fk_enable_always_runs (ds : DialectOps) (env : ApplyEnv) (m : Migration)
    (hfk : m.disableFK = true) (hdis : (ds.disableFKs env.connExec).2 = none) :
    (applyMigration ds env m).1 = [.disableFKsCall, .txRegion, .enableFKsCall] ∧
    (∀ e, (ds.enableFKs env.connExec).2 = some e → (applyMigration ds env m).2 = some e) := by
  cases henb : (ds.enableFKs env.connExec).2 with
  | none =>
    constructor
    · simp [applyMigration, hfk, hdis, henb]
    · intro e he
      simp at he
  | some e0 =>
    constructor
    · simp [applyMigration, hfk, hdis, henb]
    · intro e he
      obtain rfl : e0 = e := by simpa using he
      simp [applyMigration, hfk, hdis, henb]

/-- Witness for C2: against SQLite with a connection that fails exactly on
the enable pragma, a fully successful migration still returns the enable
step's error. -/
theorem fk_enable_always_runs_witness :
    mFK.disableFK = true ∧
      (applyMigration sqliteSupp enableFailsEnv mFK).1 =
        [.disableFKsCall, .txRegion, .enableFKsCall] ∧
      (applyMigration sqliteSupp enableFailsEnv mFK).2 =
        some ("sqlite: disable FK constraints: " ++ "locked") := by
  have h := fk_enable_always_runs sqliteSupp enableFailsEnv mFK rfl rfl
  exact ⟨rfl, h.1, h.2 _ rfl⟩

/-- C10 (confirmed): the MySQL dialect's FK toggle operations issue no SQL
command and always succeed, so `applyMigration` against MySQL returns exactly
the transactional result regardless of `DisableFK`: the toggle is a no-op. -/
theorem mysql_fk_toggle_noop :
    mysqlSupp.enableFKs = (fun _ => ([], none)) ∧
    mysqlSupp.disableFKs = (fun _ => ([], none)) ∧
    ∀ (env : ApplyEnv) (m : Migration),
      (applyMigration mysqlSupp env m).2 = withTxModel env (txBody mysqlSupp env m) := by
  refine ⟨rfl, rfl, ?_⟩
  intro env m
  by_cases h : m.disableFK
  · simp [applyMigration, h, mysqlSupp]
  · simp [applyMigration, h]


end Dbmigrate
